import Mathlib

set_option maxHeartbeats 1000000

/-!
Verification development for a slide-deck OKR extraction engine.

The engine (source files `extract_okr.py` and `cleaning.py`) extracts
status-report rows from slide decks: it classifies indicator-shape fill
colors, dedups and orders indicator shapes, extracts table rows with
fill-forward for blank cells, and reconciles page-indexed metadata
(department names, member counts) onto page-indexed data rows.

Python floats over shape offsets are modelled as exact rationals (`ℚ`),
integer EMU positions as `ℤ`, and fallible code (index errors, division by
zero) as `Option`-valued functions where `none` marks a raised exception.
-/

/- ### Color classifier (source: `extract_okr.py`, `rgb_to_colour_name`) -/

/-- Squared Euclidean distance between two RGB triples.  The source computes
`math.dist` (the Euclidean distance); for integer components, comparing
Euclidean distances is equivalent to comparing their squares (square root is
strictly monotone and exact on these magnitudes), so the embedding works with
exact squared distances. -/
def rgbDistSq (a b : ℕ × ℕ × ℕ) : ℤ :=
  ((a.1 : ℤ) - b.1) * ((a.1 : ℤ) - b.1) +
    ((a.2.1 : ℤ) - b.2.1) * ((a.2.1 : ℤ) - b.2.1) +
    ((a.2.2 : ℤ) - b.2.2) * ((a.2.2 : ℤ) - b.2.2)

/-- Reference triple for "Green" in the source. -/
def greenRef : ℕ × ℕ × ℕ := (147, 196, 125)

/-- Reference triple for "Yellow" in the source. -/
def yellowRef : ℕ × ℕ × ℕ := (255, 229, 153)

/-- Reference triple for "Red" in the source. -/
def redRef : ℕ × ℕ × ℕ := (213, 97, 97)

/-- Embedding of `rgb_to_colour_name`: distances to the three references are
collected in the order green, yellow, red; `closest` is their minimum
(Python `min` over the three-element list); the result is decided by
comparing `closest` against the list entries in order. -/
def rgb_to_colour_name (rgb : ℕ × ℕ × ℕ) : String :=
  let d0 := rgbDistSq greenRef rgb
  let d1 := rgbDistSq yellowRef rgb
  let d2 := rgbDistSq redRef rgb
  let closest := min (min d0 d1) d2
  if closest = d0 then "Green"
  else if closest = d1 then "Yellow"
  else "Red"

/-- Specification-side classifier, written from the spec's words: return the
label of the nearest reference, with exact-distance ties broken by the fixed
priority Green > Yellow > Red. -/
def classifySpec (rgb : ℕ × ℕ × ℕ) : String :=
  let dG := rgbDistSq greenRef rgb
  let dY := rgbDistSq yellowRef rgb
  let dR := rgbDistSq redRef rgb
  if dG ≤ dY ∧ dG ≤ dR then "Green"
  else if dY ≤ dG ∧ dY ≤ dR then "Yellow"
  else "Red"

/-- C1: for every explicit RGB triple, `rgb_to_colour_name` returns the label
of the nearest of the three fixed references (Euclidean distance), ties broken
by the priority Green > Yellow > Red; moreover the two regression fixtures
`(253,217,102) ↦ "Yellow"` and `(41,175,140) ↦ "Green"` hold. -/
theorem claim_C1_classifyColor :
    (∀ rgb : ℕ × ℕ × ℕ, rgb_to_colour_name rgb = classifySpec rgb) ∧
    rgb_to_colour_name (253, 217, 102) = "Yellow" ∧
    rgb_to_colour_name (41, 175, 140) = "Green" := by
  refine ⟨fun rgb => ?_, by decide, by decide⟩
  simp only [rgb_to_colour_name, classifySpec, min_def]
  split_ifs <;> first | rfl | omega

/- ### Data model: shapes, tables, pages -/

/-- Fill descriptor of a shape: an explicit RGB triple (`color_obj.type == 1`
in the source), a theme-palette slot (`color_obj.type == 2`), or an
unresolved fill (any other type). -/
inductive FillDesc where
  | rgb (r g b : ℕ)
  | theme (slot : ℕ)
  | other
deriving DecidableEq, Inhabited

/-- A table is a rectangular grid of cell texts; the first row is the header. -/
structure TableM where
  rows : List (List String)
deriving DecidableEq, Inhabited

/-- A slide shape.  `isAuto` models `shape_type == MSO_SHAPE_TYPE.AUTO_SHAPE`;
`top` and `left` are the native integer EMU offsets; `text?` is the text frame
content when present (`shape.has_text_frame` / `shape.text`); `table?` is the
contained table when present (`shape.has_table` / `shape.table`). -/
structure ShapeModel where
  isAuto : Bool
  top : ℤ
  left : ℤ
  fill : FillDesc
  text? : Option String
  table? : Option TableM
deriving DecidableEq, Inhabited

/-- A slide: a visibility flag and an ordered collection of shapes. -/
structure Page where
  hidden : Bool
  shapes : List ShapeModel
deriving DecidableEq, Inhabited

/- ### Geometry utilities (source: `get_top_dist`, `get_left_dist`,
`is_overlapping`, `get_auto_shapes`, `sort_auto_shapes`) -/

/-- Embedding of `get_top_dist`: distance in cm from the top edge,
`shape.top / 360000`. -/
def get_top_dist (s : ShapeModel) : ℚ := (s.top : ℚ) / 360000

/-- Embedding of `get_left_dist`: distance in cm from the left edge,
`shape.left / 360000`. -/
def get_left_dist (s : ShapeModel) : ℚ := (s.left : ℚ) / 360000

/-- Index-tracking loop of `is_overlapping`: return the first index `i` whose
shape's top distance is within the inclusive band `± 0.3` of the candidate. -/
def overlapIdx (s : ShapeModel) : List ShapeModel → ℕ → Option ℕ
  | [], _ => none
  | t :: ts, i =>
      if get_top_dist t - 3/10 ≤ get_top_dist s ∧ get_top_dist s ≤ get_top_dist t + 3/10
      then some i
      else overlapIdx s ts (i + 1)

/-- Embedding of `is_overlapping`.  The source returns `-1` when no shape in
the list under-laps the candidate; that sentinel is rendered as `none`. -/
def is_overlapping (s : ShapeModel) (lst : List ShapeModel) : Option ℕ :=
  overlapIdx s lst 0

/-- Embedding of `get_auto_shapes`: keep auto shapes, and when a new auto
shape overlaps an already collected one, pop the collected one and append the
new one (topmost-drawn wins). -/
def get_auto_shapes (shapes : List ShapeModel) : List ShapeModel :=
  shapes.foldl
    (fun acc s =>
      if s.isAuto then
        match is_overlapping s acc with
        | some i => acc.eraseIdx i ++ [s]
        | none => acc ++ [s]
      else acc)
    []

/-- Python dict assignment `d[k] = v` on an insertion-ordered association
list: replace the value at an existing key in place, else append. -/
def dictInsert (d : List (ℚ × ShapeModel)) (k : ℚ) (v : ShapeModel) :
    List (ℚ × ShapeModel) :=
  if d.any (fun p => p.1 = k) then
    d.map (fun p => if p.1 = k then (k, v) else p)
  else d ++ [(k, v)]

/-- First phase of `sort_auto_shapes`: build the dict keyed by top distance
(`d[get_top_dist(shape)] = shape`); a later shape with the same top distance
overwrites the earlier one. -/
def buildTopDict (l : List ShapeModel) : List (ℚ × ShapeModel) :=
  l.foldl (fun d s => dictInsert d (get_top_dist s) s) []

/-- Python `min` over the dict's keys.  The source calls it only on a
non-empty dict (the loop runs `len(d)` times); the `[]` case is unreachable
there and its value is irrelevant. -/
def minKey : List (ℚ × ShapeModel) → ℚ
  | [] => 0
  | p :: ps => ps.foldl (fun m q => min m q.1) p.1

/-- Extraction loop of `sort_auto_shapes`: `len(d)` times, take the value at
the minimal key, append it, and remove that key from the dict (`d.pop`).
Keys are pairwise distinct by construction of `buildTopDict`, so removing by
key removes exactly one entry; `find?` returning `none` is unreachable (the
minimal key is a key of the non-empty dict). -/
def extractLoop : ℕ → List (ℚ × ShapeModel) → List ShapeModel → List ShapeModel
  | 0, _, acc => acc
  | n + 1, d, acc =>
      let k := minKey d
      let v := match d.find? (fun p => p.1 = k) with
        | some p => p.2
        | none => default
      extractLoop n (d.filter (fun p => ¬ p.1 = k)) (acc ++ [v])

/-- Embedding of `sort_auto_shapes`: order shapes by ascending top distance
via the key-ordered dict extraction, then keep only the shapes whose left
distance lies within the inclusive band `± 2` of the mean left distance.  On
an empty input the source evaluates `sum([]) / len([])`, a `ZeroDivisionError`;
that raise is rendered as `none`. -/
def sort_auto_shapes (l : List ShapeModel) : Option (List ShapeModel) :=
  let d := buildTopDict l
  let sorted := extractLoop d.length d []
  let leftDist := sorted.map get_left_dist
  if leftDist.length = 0 then none
  else
    let avg := leftDist.sum / (leftDist.length : ℚ)
    some (sorted.filter
      (fun s => avg - 2 ≤ get_left_dist s ∧ get_left_dist s ≤ avg + 2))

/-- C3 (code bug): `sort_auto_shapes` applied to the empty list does not
return an empty list — the source raises `ZeroDivisionError` computing the
mean left distance `sum([]) / len([])`, modelled here as `none`. -/
theorem claim_C3_empty_input_raises : sort_auto_shapes [] = none := rfl

/-- C8: the overlap tolerance band is inclusive — a collected shape whose top
distance differs from the candidate's by exactly `3/10` is reported as
overlapping (its index is returned), while a difference of `31/100` is not
(`none`, the source's `-1`). -/
theorem claim_C8_overlap_band_inclusive :
    (∀ s t : ShapeModel, |get_top_dist s - get_top_dist t| = 3/10 →
      is_overlapping s [t] = some 0) ∧
    (∀ s t : ShapeModel, |get_top_dist s - get_top_dist t| = 31/100 →
      is_overlapping s [t] = none) := by
  constructor
  · intro s t h
    have hb := abs_sub_le_iff.mp h.le
    have h1 : get_top_dist t - 3/10 ≤ get_top_dist s ∧
        get_top_dist s ≤ get_top_dist t + 3/10 := by
      constructor <;> linarith [hb.1, hb.2]
    simp only [is_overlapping, overlapIdx, if_pos h1]
  · intro s t h
    simp only [is_overlapping, overlapIdx]
    rw [if_neg]
    rintro ⟨h1, h2⟩
    have : |get_top_dist s - get_top_dist t| ≤ 3/10 := by
      rw [abs_sub_le_iff]; constructor <;> linarith
    rw [h] at this
    norm_num at this

/-- Witness for C8 at concrete shapes: tops `108000` and `0` EMU (distance
difference exactly `3/10` cm) overlap; tops `111600` and `0` EMU (difference
`31/100` cm) do not. -/
theorem claim_C8_witness :
    is_overlapping ⟨true, 108000, 0, .other, none, none⟩
      [⟨true, 0, 0, .other, none, none⟩] = some 0 ∧
    is_overlapping ⟨true, 111600, 0, .other, none, none⟩
      [⟨true, 0, 0, .other, none, none⟩] = none := by
  constructor
  · exact claim_C8_overlap_band_inclusive.1 _ _ (by norm_num [get_top_dist])
  · exact claim_C8_overlap_band_inclusive.2 _ _ (by norm_num [get_top_dist])

/- ### C4 infrastructure: the dict extraction of `sort_auto_shapes` is a
sort by ascending vertical offset -/

/-- Keys of an association list. -/
def keysOf (d : List (ℚ × ShapeModel)) : List ℚ := d.map Prod.fst

/-- Comparison of dict entries by key (non-strict). -/
def keyLE (a b : ℚ × ShapeModel) : Prop := a.1 ≤ b.1

/-- Comparison of dict entries by key (strict). -/
def keyLT (a b : ℚ × ShapeModel) : Prop := a.1 < b.1

/-- Specification-side comparison of shapes by vertical offset (non-strict). -/
def topLE (a b : ShapeModel) : Prop := get_top_dist a ≤ get_top_dist b

/-- Specification-side comparison of shapes by vertical offset (strict). -/
def topLT (a b : ShapeModel) : Prop := get_top_dist a < get_top_dist b

instance : DecidableRel keyLE := fun a b => inferInstanceAs (Decidable (a.1 ≤ b.1))

instance : DecidableRel topLE := fun a b =>
  inferInstanceAs (Decidable (get_top_dist a ≤ get_top_dist b))

instance : IsTotal (ℚ × ShapeModel) keyLE := ⟨fun a b => le_total a.1 b.1⟩

instance : IsTrans (ℚ × ShapeModel) keyLE := ⟨fun _ _ _ h1 h2 => le_trans h1 h2⟩

instance : IsAntisymm (ℚ × ShapeModel) keyLT :=
  ⟨fun _ _ h1 h2 => absurd h1 (lt_asymm h2)⟩

instance : IsTotal ShapeModel topLE :=
  ⟨fun a b => le_total (get_top_dist a) (get_top_dist b)⟩

instance : IsTrans ShapeModel topLE := ⟨fun _ _ _ h1 h2 => le_trans h1 h2⟩

instance : IsAntisymm ShapeModel topLT :=
  ⟨fun _ _ h1 h2 => absurd h1 (lt_asymm h2)⟩

/-- Specification-side sort of `orderAndFilterColumn`: ascending by vertical
offset (insertion sort; stable, though stability is moot for pairwise
distinct offsets). -/
def sortByTopSpec (l : List ShapeModel) : List ShapeModel :=
  List.insertionSort topLE l

/-- Specification-side column filter of `orderAndFilterColumn`: discard any
shape whose horizontal offset deviates from the mean horizontal offset by
more than 2 units. -/
def bandFilterSpec (s : List ShapeModel) : List ShapeModel :=
  let avg := (s.map get_left_dist).sum / ((s.map get_left_dist).length : ℚ)
  s.filter (fun x => |get_left_dist x - avg| ≤ 2)

theorem dictInsert_of_not_mem (d : List (ℚ × ShapeModel)) (k : ℚ) (v : ShapeModel)
    (hk : k ∉ keysOf d) : dictInsert d k v = d ++ [(k, v)] := by
  unfold dictInsert
  rw [if_neg]
  simp only [List.any_eq_true, decide_eq_true_eq]
  rintro ⟨p, hp, hpk⟩
  exact hk (hpk ▸ List.mem_map_of_mem Prod.fst hp)

theorem buildTopDict_go (l : List ShapeModel) :
    ∀ d : List (ℚ × ShapeModel),
      (keysOf d ++ l.map get_top_dist).Nodup →
      l.foldl (fun d s => dictInsert d (get_top_dist s) s) d
        = d ++ l.map (fun s => (get_top_dist s, s)) := by
  induction l with
  | nil => intro d _; simp
  | cons s rest ih =>
    intro d hnd
    have hdisj := List.disjoint_of_nodup_append hnd
    have hk : get_top_dist s ∉ keysOf d := fun hmem =>
      hdisj hmem (by simp)
    have hnd' : (keysOf (d ++ [(get_top_dist s, s)]) ++ rest.map get_top_dist).Nodup := by
      have heq : keysOf (d ++ [(get_top_dist s, s)]) ++ rest.map get_top_dist
          = keysOf d ++ (s :: rest).map get_top_dist := by
        simp [keysOf]
      rw [heq]
      exact hnd
    rw [List.foldl_cons, dictInsert_of_not_mem d _ s hk,
      ih (d ++ [(get_top_dist s, s)]) hnd']
    simp

theorem buildTopDict_eq (l : List ShapeModel) (hnd : (l.map get_top_dist).Nodup) :
    buildTopDict l = l.map (fun s => (get_top_dist s, s)) := by
  have := buildTopDict_go l [] (by simpa [keysOf] using hnd)
  simpa [buildTopDict] using this

theorem keysOf_pairs (l : List ShapeModel) :
    keysOf (l.map (fun s => (get_top_dist s, s))) = l.map get_top_dist := by
  simp [keysOf, List.map_map]

theorem foldl_min_le (ps : List (ℚ × ShapeModel)) (a : ℚ) :
    ps.foldl (fun m q => min m q.1) a ≤ a ∧
    ∀ q ∈ ps, ps.foldl (fun m q => min m q.1) a ≤ q.1 := by
  induction ps generalizing a with
  | nil => simp
  | cons p rest ih =>
    simp only [List.foldl_cons]
    obtain ⟨h1, h2⟩ := ih (min a p.1)
    refine ⟨le_trans h1 (min_le_left _ _), ?_⟩
    intro q hq
    rcases List.mem_cons.mp hq with rfl | hq'
    · exact le_trans h1 (min_le_right _ _)
    · exact h2 q hq'

theorem foldl_min_eq_mem (ps : List (ℚ × ShapeModel)) (a : ℚ) :
    ps.foldl (fun m q => min m q.1) a = a ∨
    ∃ q ∈ ps, ps.foldl (fun m q => min m q.1) a = q.1 := by
  induction ps generalizing a with
  | nil => simp
  | cons p rest ih =>
    simp only [List.foldl_cons]
    rcases ih (min a p.1) with h | ⟨q, hq, hx⟩
    · rcases min_choice a p.1 with hm | hm
      · exact Or.inl (h.trans hm)
      · exact Or.inr ⟨p, List.mem_cons_self p rest, h.trans hm⟩
    · exact Or.inr ⟨q, List.mem_cons_of_mem p hq, hx⟩

theorem minKey_le (d : List (ℚ × ShapeModel)) :
    ∀ q ∈ d, minKey d ≤ q.1 := by
  cases d with
  | nil => intro q hq; cases hq
  | cons p ps =>
    intro q hq
    rcases List.mem_cons.mp hq with rfl | hq'
    · exact (foldl_min_le ps q.1).1
    · exact (foldl_min_le ps p.1).2 q hq'

theorem minKey_mem (d : List (ℚ × ShapeModel)) (hne : d ≠ []) :
    minKey d ∈ keysOf d := by
  cases d with
  | nil => exact absurd rfl hne
  | cons p ps =>
    rcases foldl_min_eq_mem ps p.1 with h | ⟨q, hq, hx⟩
    · simp only [minKey, h, keysOf, List.map_cons]
      exact List.mem_cons_self _ _
    · simp only [minKey, hx, keysOf, List.map_cons]
      exact List.mem_cons_of_mem _ (List.mem_map_of_mem Prod.fst hq)

theorem find_key_exists (d : List (ℚ × ShapeModel)) (k : ℚ) (hk : k ∈ keysOf d) :
    ∃ p, d.find? (fun p => p.1 = k) = some p ∧ p ∈ d ∧ p.1 = k := by
  have hex : ∃ x ∈ d, (fun p : ℚ × ShapeModel => decide (p.1 = k)) x = true := by
    obtain ⟨p, hp, hpk⟩ := List.mem_map.mp hk
    exact ⟨p, hp, by simp [hpk]⟩
  have hs := List.find?_isSome.mpr hex
  obtain ⟨p, hp⟩ := Option.isSome_iff_exists.mp hs
  refine ⟨p, hp, List.mem_of_find?_eq_some hp, ?_⟩
  have := List.find?_some hp
  simpa using this


theorem perm_cons_filter_key (d : List (ℚ × ShapeModel)) (p₀ : ℚ × ShapeModel)
    (hnd : (keysOf d).Nodup) (hmem : p₀ ∈ d) :
    d.Perm (p₀ :: d.filter (fun p => ¬ p.1 = p₀.1)) := by
  induction d with
  | nil => cases hmem
  | cons q rest ih =>
    have hnd2 : (q.1 :: keysOf rest).Nodup := hnd
    have hq : q.1 ∉ keysOf rest := (List.nodup_cons.mp hnd2).1
    have hndr : (keysOf rest).Nodup := (List.nodup_cons.mp hnd2).2
    rcases List.mem_cons.mp hmem with rfl | hmem'
    · have hfil : rest.filter (fun p => ¬ p.1 = p₀.1) = rest := by
        rw [List.filter_eq_self]
        intro a ha
        have hma : a.1 ∈ keysOf rest := List.mem_map_of_mem Prod.fst ha
        simp only [decide_eq_true_eq]
        exact fun h => hq (h ▸ hma)
      rw [List.filter_cons_of_neg (by simp), hfil]
    · have hne : ¬ q.1 = p₀.1 := by
        have hmk : p₀.1 ∈ keysOf rest := List.mem_map_of_mem Prod.fst hmem'
        exact fun h => hq (h ▸ hmk)
      have hstep := ih hndr hmem'
      have h1 : (q :: rest).Perm (q :: (p₀ :: rest.filter (fun p => ¬ p.1 = p₀.1))) :=
        hstep.cons q
      have h2 : (q :: (p₀ :: rest.filter (fun p => ¬ p.1 = p₀.1))).Perm
          (p₀ :: (q :: rest.filter (fun p => ¬ p.1 = p₀.1))) :=
        List.Perm.swap p₀ q _
      have h3 : (q :: rest).filter (fun p => ¬ p.1 = p₀.1)
          = q :: rest.filter (fun p => ¬ p.1 = p₀.1) := by
        rw [List.filter_cons_of_pos (by simpa using hne)]
      rw [h3]
      exact h1.trans h2

theorem sorted_key_lt_of_le (L : List (ℚ × ShapeModel)) (h1 : List.Sorted keyLE L)
    (h2 : List.Pairwise (fun a b : ℚ × ShapeModel => a.1 ≠ b.1) L) :
    List.Sorted keyLT L :=
  (h1.and h2).imp (fun h => lt_of_le_of_ne h.1 h.2)

theorem pairwise_key_ne_of_nodup (L : List (ℚ × ShapeModel)) (hnd : (keysOf L).Nodup) :
    List.Pairwise (fun a b : ℚ × ShapeModel => a.1 ≠ b.1) L := by
  have h : List.Pairwise (fun a b : ℚ => a ≠ b) (keysOf L) := hnd
  exact List.pairwise_map.mp h

theorem sorted_key_lt_insertionSort (d : List (ℚ × ShapeModel))
    (hnd : (keysOf d).Nodup) :
    List.Sorted keyLT (List.insertionSort keyLE d) := by
  apply sorted_key_lt_of_le
  · exact List.sorted_insertionSort keyLE d
  · exact ((List.perm_insertionSort keyLE d).pairwise_iff
      (fun h => Ne.symm h)).mpr (pairwise_key_ne_of_nodup d hnd)

theorem sort_cons_min (d : List (ℚ × ShapeModel)) (p₀ : ℚ × ShapeModel)
    (hnd : (keysOf d).Nodup) (hmem : p₀ ∈ d) (hmin : ∀ q ∈ d, p₀.1 ≤ q.1) :
    List.insertionSort keyLE d
      = p₀ :: List.insertionSort keyLE (d.filter (fun p => ¬ p.1 = p₀.1)) := by
  have hperm : d.Perm (p₀ :: d.filter (fun p => ¬ p.1 = p₀.1)) :=
    perm_cons_filter_key d p₀ hnd hmem
  have hndf : (keysOf (d.filter (fun p => ¬ p.1 = p₀.1))).Nodup := by
    have hsub : (d.filter (fun p => ¬ p.1 = p₀.1)).Sublist d := List.filter_sublist d
    exact (hsub.map Prod.fst).nodup hnd
  apply List.eq_of_perm_of_sorted (r := keyLT)
  · have ha : (List.insertionSort keyLE d).Perm d := List.perm_insertionSort keyLE d
    have hb : (p₀ :: d.filter (fun p => ¬ p.1 = p₀.1)).Perm
        (p₀ :: List.insertionSort keyLE (d.filter (fun p => ¬ p.1 = p₀.1))) :=
      ((List.perm_insertionSort keyLE _).symm).cons p₀
    exact (ha.trans hperm).trans hb
  · exact sorted_key_lt_insertionSort d hnd
  · rw [List.sorted_cons]
    constructor
    · intro q hq
      have hq' : q ∈ d.filter (fun p => ¬ p.1 = p₀.1) :=
        (List.perm_insertionSort keyLE _).mem_iff.mp hq
      have hqd : q ∈ d := List.mem_of_mem_filter hq'
      have hqe : ¬ q.1 = p₀.1 := by
        have := List.of_mem_filter hq'
        simpa using this
      have : p₀.1 ≤ q.1 := hmin q hqd
      exact lt_of_le_of_ne this (fun h => hqe (by rw [h]))
    · exact sorted_key_lt_insertionSort _ hndf

theorem extractLoop_sorted :
    ∀ (n : ℕ) (d : List (ℚ × ShapeModel)) (acc : List ShapeModel),
      d.length = n → (keysOf d).Nodup →
      extractLoop n d acc = acc ++ (List.insertionSort keyLE d).map Prod.snd := by
  intro n
  induction n with
  | zero =>
    intro d acc hlen _
    rw [List.length_eq_zero.mp hlen]
    simp [extractLoop]
  | succ n ih =>
    intro d acc hlen hnd
    have hne : d ≠ [] := by
      intro h; rw [h] at hlen; simp at hlen
    have hkmem : minKey d ∈ keysOf d := minKey_mem d hne
    obtain ⟨p₀, hfind, hp₀mem, hp₀k⟩ := find_key_exists d (minKey d) hkmem
    have hmin : ∀ q ∈ d, p₀.1 ≤ q.1 := by
      intro q hq
      rw [hp₀k]
      exact minKey_le d q hq
    have hfil : d.filter (fun p => ¬ p.1 = minKey d)
        = d.filter (fun p => ¬ p.1 = p₀.1) := by rw [hp₀k]
    have hperm : d.Perm (p₀ :: d.filter (fun p => ¬ p.1 = p₀.1)) :=
      perm_cons_filter_key d p₀ hnd hp₀mem
    have hlen' : (d.filter (fun p => ¬ p.1 = p₀.1)).length = n := by
      have hl := hperm.length_eq
      rw [hlen] at hl
      simp only [List.length_cons] at hl
      omega
    have hndf : (keysOf (d.filter (fun p => ¬ p.1 = p₀.1))).Nodup := by
      have hsub : (d.filter (fun p => ¬ p.1 = p₀.1)).Sublist d := List.filter_sublist d
      exact (hsub.map Prod.fst).nodup hnd
    simp only [extractLoop, hfind, hfil]
    rw [ih _ _ hlen' hndf, sort_cons_min d p₀ hnd hp₀mem hmin]
    simp

theorem sort_pairs_map (l : List ShapeModel) (hnd : (l.map get_top_dist).Nodup) :
    (List.insertionSort keyLE (l.map (fun s => (get_top_dist s, s)))).map Prod.snd
      = List.insertionSort topLE l := by
  have hndp : (keysOf (l.map (fun s => (get_top_dist s, s)))).Nodup := by
    rw [keysOf_pairs]; exact hnd
  apply List.eq_of_perm_of_sorted (r := topLT)
  · have h1 : ((List.insertionSort keyLE (l.map (fun s => (get_top_dist s, s)))).map
        Prod.snd).Perm ((l.map (fun s => (get_top_dist s, s))).map Prod.snd) :=
      (List.perm_insertionSort keyLE _).map Prod.snd
    have h2 : (l.map (fun s => (get_top_dist s, s))).map Prod.snd = l := by
      rw [List.map_map]
      exact List.map_id l
    rw [h2] at h1
    exact h1.trans (List.perm_insertionSort topLE l).symm
  · have hs : List.Sorted keyLT
        (List.insertionSort keyLE (l.map (fun s => (get_top_dist s, s)))) :=
      sorted_key_lt_insertionSort _ hndp
    have hmem : ∀ p ∈ List.insertionSort keyLE (l.map (fun s => (get_top_dist s, s))),
        p.1 = get_top_dist p.2 := by
      intro p hp
      have hp' : p ∈ l.map (fun s => (get_top_dist s, s)) :=
        (List.perm_insertionSort keyLE _).mem_iff.mp hp
      obtain ⟨s, _, rfl⟩ := List.mem_map.mp hp'
      rfl
    have hpw : List.Pairwise (fun a b : ℚ × ShapeModel => topLT a.2 b.2)
        (List.insertionSort keyLE (l.map (fun s => (get_top_dist s, s)))) := by
      refine List.Pairwise.imp_of_mem ?_ hs
      intro a b ha hb hab
      have h1 := hmem a ha
      have h2 := hmem b hb
      unfold keyLT at hab
      unfold topLT
      rw [h1, h2] at hab
      exact hab
    exact List.pairwise_map.mpr hpw
  · have hsle : List.Sorted topLE (List.insertionSort topLE l) :=
      List.sorted_insertionSort topLE l
    have hne : List.Pairwise (fun a b : ShapeModel => get_top_dist a ≠ get_top_dist b)
        (List.insertionSort topLE l) := by
      have h : List.Pairwise (fun a b : ℚ => a ≠ b) (l.map get_top_dist) := hnd
      have hpl : List.Pairwise
          (fun a b : ShapeModel => get_top_dist a ≠ get_top_dist b) l :=
        List.pairwise_map.mp h
      exact ((List.perm_insertionSort topLE l).pairwise_iff
        (fun h => Ne.symm h)).mpr hpl
    exact (hsle.and hne).imp (fun h => lt_of_le_of_ne h.1 h.2)

/-- C4 (amended): for every non-empty list of collected shapes whose vertical
offsets are pairwise distinct, `sort_auto_shapes` sorts the shapes ascending
by vertical offset and then removes exactly those whose horizontal offset
deviates from the mean horizontal offset by more than 2 units.  (When two
collected shapes share a vertical offset only the last-collected is kept —
see the counterexample — and the empty list raises, see C3, so the claim's
"every list, all shapes still present" fails without these hypotheses.) -/
theorem claim_C4_orderAndFilterColumn (l : List ShapeModel) (hne : l ≠ [])
    (hnd : (l.map get_top_dist).Nodup) :
    sort_auto_shapes l = some (bandFilterSpec (sortByTopSpec l)) := by
  have hb : buildTopDict l = l.map (fun s => (get_top_dist s, s)) := buildTopDict_eq l hnd
  have hndp : (keysOf (buildTopDict l)).Nodup := by
    rw [hb, keysOf_pairs]; exact hnd
  have hext : extractLoop (buildTopDict l).length (buildTopDict l) []
      = List.insertionSort topLE l := by
    rw [extractLoop_sorted (buildTopDict l).length (buildTopDict l) [] rfl hndp, hb,
      sort_pairs_map l hnd]
    simp
  have hlength : (List.insertionSort topLE l).length = l.length :=
    List.length_insertionSort topLE l
  simp only [sort_auto_shapes, hext]
  rw [if_neg (by simp [hlength, List.length_eq_zero]; exact hne)]
  simp only [bandFilterSpec, sortByTopSpec]
  congr 1
  apply List.filter_congr
  intro x _
  rw [decide_eq_decide]
  rw [abs_sub_le_iff]
  constructor
  · rintro ⟨h1, h2⟩
    constructor <;> linarith
  · rintro ⟨h1, h2⟩
    constructor <;> linarith

/-- C4 counterexample: two distinct shapes with equal vertical offsets (tops
both `0`, lefts `0` and `360000`) are not both present after
`sort_auto_shapes` — the dict keyed by top distance keeps only the
last-collected one, so the claim's "every input shape is still present in the
sorted sequence" is false. -/
theorem claim_C4_counterexample :
    sort_auto_shapes
        [⟨true, 0, 0, .other, none, none⟩, ⟨true, 0, 360000, .other, none, none⟩]
      = some [⟨true, 0, 360000, .other, none, none⟩] ∧
    (⟨true, 0, 0, .other, none, none⟩ : ShapeModel)
      ∉ [(⟨true, 0, 360000, .other, none, none⟩ : ShapeModel)] := by
  constructor
  · norm_num [sort_auto_shapes, buildTopDict, dictInsert, extractLoop, minKey,
      get_top_dist, get_left_dist, List.find?, List.filter]
  · simp

/-- Witness for C4 at two concrete shapes with distinct vertical offsets. -/
theorem claim_C4_witness :
    ([⟨true, 720000, 360000, .other, none, none⟩,
      ⟨true, 360000, 360000, .other, none, none⟩] : List ShapeModel) ≠ [] ∧
    (([⟨true, 720000, 360000, .other, none, none⟩,
       ⟨true, 360000, 360000, .other, none, none⟩] : List ShapeModel).map
      get_top_dist).Nodup ∧
    sort_auto_shapes
        [⟨true, 720000, 360000, .other, none, none⟩,
         ⟨true, 360000, 360000, .other, none, none⟩]
      = some (bandFilterSpec (sortByTopSpec
          [⟨true, 720000, 360000, .other, none, none⟩,
           ⟨true, 360000, 360000, .other, none, none⟩])) :=
  ⟨by simp, by norm_num [get_top_dist],
    claim_C4_orderAndFilterColumn _ (by simp) (by norm_num [get_top_dist])⟩

/- ### Range reconciler (source: `add_dept_names`, `add_member_count`) -/

/-- Value appended to a data row by the reconcilers: a department-name string,
a member-count integer, or the spec's `null` marker for an unassigned field.
The marker is needed to state the claims; the code never produces it. -/
inductive FieldVal where
  | str (s : String)
  | num (n : ℕ)
  | null
deriving DecidableEq, Inhabited

/-- A data row as the reconcilers see it: `page` is `row[0]` (the slide
number); the remaining positions of the source's heterogeneous list are
`fields`. -/
structure Row where
  page : ℕ
  fields : List FieldVal
deriving DecidableEq, Inhabited

/-- Inner loop shared verbatim by `add_dept_names` and `add_member_count`
(the two source functions are textual copies up to the projections used):
iterate `j` over the declaration indices; when `j` is the last index and the
declaration's page is below the row's page, append the declaration's value;
otherwise when the row's page lies strictly between declaration `j`'s page
and declaration `j+1`'s page, append declaration `j`'s value.  In Python the
chained comparison `decls[j][k] < page < decls[j+1][k]` reads `decls[j+1]`
only when its left half holds; `decls[j+1]?` can be `none` only when `j` is
the last index, and then the left half is false (else the first branch
fired), so substituting `row.page` (making `row.page < row.page` false) is
faithful to that unreachable read. -/
def assignLoop {δ : Type} (pg : δ → ℕ) (vl : δ → FieldVal) (decls : List δ)
    (row : Row) : Row :=
  { page := row.page,
    fields :=
      (List.range decls.length).foldl
        (fun fs j =>
          match decls[j]? with
          | none => fs
          | some dj =>
            if j = decls.length - 1 ∧ pg dj < row.page then fs ++ [vl dj]
            else if pg dj < row.page ∧
                row.page < (match decls[j + 1]? with
                  | some dn => pg dn
                  | none => row.page) then fs ++ [vl dj]
            else fs)
        row.fields }

/-- Embedding of `add_dept_names`: for each row of the table data, run the
declaration scan and append the matching department name. -/
def add_dept_names (data : List Row) (dept_names : List (String × ℕ)) : List Row :=
  data.map (assignLoop Prod.snd (fun d => FieldVal.str d.1) dept_names)

/-- Embedding of `add_member_count`: same scan with `(slide number, count)`
declarations, appending the count. -/
def add_member_count (data : List Row) (member_counts : List (ℕ × ℕ)) : List Row :=
  data.map (assignLoop Prod.fst (fun d => FieldVal.num d.2) member_counts)

/-- Scope membership from the spec: declaration `j` covers page `p` when
`decls[j].page < p` and either `j` is the last declaration or
`p < decls[j+1].page`. -/
def inScope {δ : Type} (pg : δ → ℕ) (decls : List δ) (p : ℕ) (j : ℕ) : Bool :=
  match decls[j]? with
  | none => false
  | some dj =>
    decide (pg dj < p) &&
      (decide (j = decls.length - 1) ||
        match decls[j + 1]? with
        | some dn => decide (p < pg dn)
        | none => false)

/-- Specification-side range assignment: the fields contributed to a row at
page `p` — the value of the declaration whose scope contains `p`, or nothing
when no scope does. -/
def scopeFields {δ : Type} (pg : δ → ℕ) (vl : δ → FieldVal) (decls : List δ)
    (p : ℕ) : List FieldVal :=
  match (List.range decls.length).find? (inScope pg decls p) with
  | some j =>
    match decls[j]? with
    | some dj => [vl dj]
    | none => []
  | none => []

theorem scopeFields_length_le_one {δ : Type} (pg : δ → ℕ) (vl : δ → FieldVal)
    (decls : List δ) (p : ℕ) : (scopeFields pg vl decls p).length ≤ 1 := by
  unfold scopeFields
  cases hf : (List.range decls.length).find? (inScope pg decls p) with
  | none => simp
  | some j =>
    cases hj : decls[j]? with
    | none => simp [hj]
    | some dj => simp [hj]

/-- The loop body's combined append condition, as a Boolean on indices. -/
def srcCond {δ : Type} (pg : δ → ℕ) (decls : List δ) (p : ℕ) (j : ℕ) : Bool :=
  match decls[j]? with
  | none => false
  | some dj =>
    (decide (j = decls.length - 1) && decide (pg dj < p)) ||
      (decide (pg dj < p) &&
        decide (p < (match decls[j + 1]? with
          | some dn => pg dn
          | none => p)))

/-- The value the loop body appends at index `j` (arbitrary off the list). -/
def valAt {δ : Type} (vl : δ → FieldVal) (decls : List δ) (j : ℕ) : FieldVal :=
  match decls[j]? with
  | some dj => vl dj
  | none => FieldVal.null

theorem assignLoop_body_eq {δ : Type} (pg : δ → ℕ) (vl : δ → FieldVal)
    (decls : List δ) (p : ℕ) (fs : List FieldVal) (j : ℕ) :
    (match decls[j]? with
      | none => fs
      | some dj =>
        if j = decls.length - 1 ∧ pg dj < p then fs ++ [vl dj]
        else if pg dj < p ∧
            p < (match decls[j + 1]? with
              | some dn => pg dn
              | none => p) then fs ++ [vl dj]
        else fs)
      = if srcCond pg decls p j then fs ++ [valAt vl decls j] else fs := by
  cases hj : decls[j]? with
  | none => simp [srcCond, hj]
  | some dj =>
    by_cases h1 : j = decls.length - 1 ∧ pg dj < p
    · obtain ⟨he, hlt⟩ := h1
      subst he
      have hc : srcCond pg decls p (decls.length - 1) = true := by
        simp only [srcCond, hj, Bool.or_eq_true, Bool.and_eq_true, decide_eq_true_eq]
        exact Or.inl (by simp [hlt])
      simp [hj, hc, valAt, hlt]
    · by_cases h2 : pg dj < p ∧ p < (match decls[j + 1]? with
          | some dn => pg dn
          | none => p)
      · have hc : srcCond pg decls p j = true := by
          simp only [srcCond, hj, Bool.or_eq_true, Bool.and_eq_true, decide_eq_true_eq]
          exact Or.inr ⟨h2.1, h2.2⟩
        simp [hj, hc, valAt, h1, h2]
      · have hc : srcCond pg decls p j = false := by
          cases hcf : srcCond pg decls p j with
          | false => rfl
          | true =>
            exfalso
            simp only [srcCond, hj, Bool.or_eq_true, Bool.and_eq_true,
              decide_eq_true_eq] at hcf
            rcases hcf with ⟨hA, hB⟩ | ⟨hB, hC⟩
            · exact h1 ⟨hA, hB⟩
            · exact h2 ⟨hB, hC⟩
        simp [hj, hc, h1, h2]

theorem foldl_append_cond (f : ℕ → Bool) (v : ℕ → FieldVal) :
    ∀ (js : List ℕ) (init : List FieldVal),
      js.foldl (fun fs j => if f j then fs ++ [v j] else fs) init
        = init ++ js.filterMap (fun j => if f j then some (v j) else none) := by
  intro js
  induction js with
  | nil => intro init; simp
  | cons j t ih =>
    intro init
    by_cases hf : f j
    · simp [hf, ih, List.filterMap_cons]
    · simp [hf, ih, List.filterMap_cons]

theorem filterMap_congr_mem {α β : Type} (l : List α) (f g : α → Option β)
    (h : ∀ a ∈ l, f a = g a) : l.filterMap f = l.filterMap g := by
  induction l with
  | nil => rfl
  | cons a t ih =>
    simp only [List.filterMap_cons, h a (List.mem_cons_self a t)]
    rw [ih (fun b hb => h b (List.mem_cons_of_mem a hb))]

theorem filterMap_cond_eq_find (f : ℕ → Bool) (v : ℕ → FieldVal) :
    ∀ js : List ℕ, js.Nodup →
      (∀ a ∈ js, ∀ b ∈ js, f a = true → f b = true → a = b) →
      js.filterMap (fun j => if f j then some (v j) else none)
        = (match js.find? f with
           | some j => [v j]
           | none => []) := by
  intro js
  induction js with
  | nil => intro _ _; simp
  | cons j t ih =>
    intro hnd huniq
    by_cases hf : f j
    · have hrest : t.filterMap (fun i => if f i then some (v i) else none) = [] := by
        rw [List.filterMap_eq_nil_iff]
        intro a ha
        by_cases hfa : f a
        · have haj : a = j := huniq a (List.mem_cons_of_mem j ha) j
            (List.mem_cons_self j t) hfa hf
          exact absurd (haj ▸ ha) (List.nodup_cons.mp hnd).1
        · simp [hfa]
      rw [List.find?_cons_of_pos _ hf]
      simp [List.filterMap_cons, hf, hrest]
    · rw [List.find?_cons_of_neg _ (by simpa using hf)]
      simp only [List.filterMap_cons, hf, if_false]
      exact ih (List.nodup_cons.mp hnd).2
        (fun a ha b hb hfa hfb => huniq a (List.mem_cons_of_mem j ha) b
          (List.mem_cons_of_mem j hb) hfa hfb)

theorem pg_mono {δ : Type} (pg : δ → ℕ) (decls : List δ)
    (hsort : List.Sorted (fun a b : ℕ => a < b) (decls.map pg)) :
    ∀ (i j : ℕ) (di dj : δ), i ≤ j → decls[i]? = some di → decls[j]? = some dj →
      pg di ≤ pg dj := by
  intro i j di dj hij hdi hdj
  obtain ⟨hi, hdi'⟩ := List.getElem?_eq_some.mp hdi
  obtain ⟨hj, hdj'⟩ := List.getElem?_eq_some.mp hdj
  rcases eq_or_lt_of_le hij with rfl | hlt
  · rw [hdi] at hdj
    cases hdj
    exact le_refl _
  · have hpw : List.Pairwise (fun a b : δ => pg a < pg b) decls := by
      have h := hsort
      rw [List.Sorted, List.pairwise_map] at h
      exact h
    have := List.pairwise_iff_get.mp hpw ⟨i, hi⟩ ⟨j, hj⟩ hlt
    rw [← hdi', ← hdj']
    exact le_of_lt (by simpa [List.get_eq_getElem] using this)

theorem inScope_lt_false {δ : Type} (pg : δ → ℕ) (decls : List δ)
    (hsort : List.Sorted (fun a b : ℕ => a < b) (decls.map pg)) (p : ℕ) :
    ∀ a b, a < b → inScope pg decls p a = true → inScope pg decls p b = true →
      False := by
  intro a b hab ha hb
  unfold inScope at ha hb
  cases hda : decls[a]? with
  | none => rw [hda] at ha; simp at ha
  | some da =>
    cases hdb : decls[b]? with
    | none => rw [hdb] at hb; simp at hb
    | some db =>
      rw [hda] at ha
      rw [hdb] at hb
      simp only [Bool.and_eq_true, Bool.or_eq_true, decide_eq_true_eq] at ha hb
      obtain ⟨hblen, _⟩ := List.getElem?_eq_some.mp hdb
      rcases ha.2 with halast | hanext
      · omega
      · cases hdn : decls[a + 1]? with
        | none => rw [hdn] at hanext; simp at hanext
        | some dn =>
          rw [hdn] at hanext
          simp only [decide_eq_true_eq] at hanext
          have hle : pg dn ≤ pg db := pg_mono pg decls hsort (a + 1) b dn db
            (by omega) hdn hdb
          have := hb.1
          omega

theorem inScope_unique {δ : Type} (pg : δ → ℕ) (decls : List δ)
    (hsort : List.Sorted (fun a b : ℕ => a < b) (decls.map pg)) (p : ℕ) :
    ∀ a b, inScope pg decls p a = true → inScope pg decls p b = true → a = b := by
  intro a b ha hb
  rcases lt_trichotomy a b with h | h | h
  · exact absurd (inScope_lt_false pg decls hsort p a b h ha hb) (by simp)
  · exact h
  · exact absurd (inScope_lt_false pg decls hsort p b a h hb ha) (by simp)

theorem srcCond_eq_inScope {δ : Type} (pg : δ → ℕ) (decls : List δ) (p j : ℕ)
    (hj : j < decls.length) : srcCond pg decls p j = inScope pg decls p j := by
  have hdj : decls[j]? = some decls[j] := List.getElem?_eq_getElem hj
  simp only [srcCond, inScope, hdj]
  by_cases hlast : j = decls.length - 1
  · subst hlast
    have hnone : decls[decls.length - 1 + 1]? = none :=
      List.getElem?_eq_none (by omega)
    simp only [hnone]
    by_cases hb : pg decls[decls.length - 1] < p <;> simp [hb]
  · have hlt : j + 1 < decls.length := by omega
    have hsome2 : decls[j + 1]? = some decls[j + 1] := List.getElem?_eq_getElem hlt
    simp [hlast, hsome2, Bool.and_or_distrib_left]

theorem foldl_congr_fun {α β : Type} (l : List α) (f g : β → α → β) (init : β)
    (h : ∀ b a, a ∈ l → f b a = g b a) : l.foldl f init = l.foldl g init := by
  induction l generalizing init with
  | nil => rfl
  | cons x t ih =>
    simp only [List.foldl_cons]
    rw [h init x (List.mem_cons_self x t)]
    exact ih _ (fun b a ha => h b a (List.mem_cons_of_mem x ha))

theorem assignLoop_eq {δ : Type} (pg : δ → ℕ) (vl : δ → FieldVal) (decls : List δ)
    (hsort : List.Sorted (fun a b : ℕ => a < b) (decls.map pg)) (row : Row) :
    assignLoop pg vl decls row
      = { page := row.page,
          fields := row.fields ++ scopeFields pg vl decls row.page } := by
  unfold assignLoop
  have hbody : (List.range decls.length).foldl
      (fun (fs : List FieldVal) (j : ℕ) =>
        match decls[j]? with
        | none => fs
        | some dj =>
          if j = decls.length - 1 ∧ pg dj < row.page then fs ++ [vl dj]
          else if pg dj < row.page ∧
              row.page < (match decls[j + 1]? with
                | some dn => pg dn
                | none => row.page) then fs ++ [vl dj]
          else fs)
      row.fields
      = (List.range decls.length).foldl
          (fun fs j => if srcCond pg decls row.page j then
            fs ++ [valAt vl decls j] else fs)
          row.fields := by
    apply foldl_congr_fun
    intro fs j _
    exact assignLoop_body_eq pg vl decls row.page fs j
  rw [hbody, foldl_append_cond]
  have hfm : (List.range decls.length).filterMap
        (fun j => if srcCond pg decls row.page j then some (valAt vl decls j) else none)
      = (List.range decls.length).filterMap
          (fun j => if inScope pg decls row.page j then
            some (valAt vl decls j) else none) := by
    apply filterMap_congr_mem
    intro a ha
    rw [srcCond_eq_inScope pg decls row.page a (List.mem_range.mp ha)]
  rw [hfm, filterMap_cond_eq_find (inScope pg decls row.page) (valAt vl decls)
    (List.range decls.length) (List.nodup_range _)
    (fun a _ b _ hfa hfb => inScope_unique pg decls hsort row.page a b hfa hfb)]
  unfold scopeFields
  cases hf : (List.range decls.length).find? (inScope pg decls row.page) with
  | none => rfl
  | some j =>
    have hsc : inScope pg decls row.page j = true := List.find?_some hf
    unfold inScope at hsc
    cases hj : decls[j]? with
    | none => rw [hj] at hsc; simp at hsc
    | some dj => simp [hj, valAt]

/-- C2 (amended): with declarations strictly ascending by page number,
`add_dept_names` appends to each row exactly the value of the declaration
whose scope contains the row's page — `Name1` for a row at page 5, `Name2`
for a row at page 12 (last-declaration rule) — and for a row at page 2, whose
page does not exceed the first declaration's page, appends nothing at all:
the row is left without the field rather than being assigned a null value. -/
theorem claim_C2_assignByRange :
    (∀ (rows : List Row) (decls : List (String × ℕ)),
      List.Sorted (fun a b : ℕ => a < b) (decls.map Prod.snd) →
      add_dept_names rows decls
        = rows.map (fun r =>
            { page := r.page,
              fields := r.fields
                ++ scopeFields Prod.snd (fun d => FieldVal.str d.1) decls r.page })) ∧
    add_dept_names [⟨5, []⟩, ⟨12, []⟩, ⟨2, []⟩] [("Name1", 3), ("Name2", 10)]
      = [⟨5, [FieldVal.str "Name1"]⟩, ⟨12, [FieldVal.str "Name2"]⟩, ⟨2, []⟩] := by
  constructor
  · intro rows decls hsort
    unfold add_dept_names
    apply List.map_congr_left
    intro r _
    exact assignLoop_eq _ _ decls hsort r
  · decide

/-- Witness for C2 at a concrete sorted declaration list and one row. -/
theorem claim_C2_witness :
    List.Sorted (fun a b : ℕ => a < b)
      ([("Name1", 3), ("Name2", 10)].map Prod.snd) ∧
    add_dept_names [⟨5, []⟩] [("Name1", 3), ("Name2", 10)]
      = ([⟨5, []⟩] : List Row).map (fun r =>
          { page := r.page,
            fields := r.fields ++ scopeFields Prod.snd (fun d => FieldVal.str d.1)
              [("Name1", 3), ("Name2", 10)] r.page }) :=
  ⟨by simp [List.sorted_cons], claim_C2_assignByRange.1 [⟨5, []⟩]
    [("Name1", 3), ("Name2", 10)] (by simp [List.sorted_cons])⟩

/-- C2 counterexample: a row at page 2 — at or below the first declaration's
page — is returned with no appended field at all; in particular the output is
not the row with a null value appended, which is what the claim asserts. -/
theorem claim_C2_counterexample :
    add_dept_names [⟨2, []⟩] [("Name1", 3), ("Name2", 10)] = [⟨2, []⟩] ∧
    add_dept_names [⟨2, []⟩] [("Name1", 3), ("Name2", 10)]
      ≠ [⟨2, [FieldVal.null]⟩] := by
  constructor
  · decide
  · decide

/-- C9: with declarations strictly ascending by page number, the two metadata
reconcilers preserve the number and order of rows, leave every pre-existing
field and the page number of every row unchanged, and append at most one new
value to any row. -/
theorem claim_C9_reconcilers_frame :
    (∀ (rows : List Row) (decls : List (String × ℕ)),
      List.Sorted (fun a b : ℕ => a < b) (decls.map Prod.snd) →
      (add_dept_names rows decls).length = rows.length ∧
      ∀ (i : ℕ) (r : Row), rows[i]? = some r →
        ∃ extra : List FieldVal, extra.length ≤ 1 ∧
          (add_dept_names rows decls)[i]?
            = some { page := r.page, fields := r.fields ++ extra }) ∧
    (∀ (rows : List Row) (decls : List (ℕ × ℕ)),
      List.Sorted (fun a b : ℕ => a < b) (decls.map Prod.fst) →
      (add_member_count rows decls).length = rows.length ∧
      ∀ (i : ℕ) (r : Row), rows[i]? = some r →
        ∃ extra : List FieldVal, extra.length ≤ 1 ∧
          (add_member_count rows decls)[i]?
            = some { page := r.page, fields := r.fields ++ extra }) := by
  constructor
  · intro rows decls hsort
    refine ⟨by simp [add_dept_names], ?_⟩
    intro i r hir
    refine ⟨scopeFields Prod.snd (fun d => FieldVal.str d.1) decls r.page,
      scopeFields_length_le_one _ _ _ _, ?_⟩
    unfold add_dept_names
    rw [List.getElem?_map, hir]
    simp [assignLoop_eq Prod.snd (fun d => FieldVal.str d.1) decls hsort r]
  · intro rows decls hsort
    refine ⟨by simp [add_member_count], ?_⟩
    intro i r hir
    refine ⟨scopeFields Prod.fst (fun d => FieldVal.num d.2) decls r.page,
      scopeFields_length_le_one _ _ _ _, ?_⟩
    unfold add_member_count
    rw [List.getElem?_map, hir]
    simp [assignLoop_eq Prod.fst (fun d => FieldVal.num d.2) decls hsort r]

/-- Witness for C9 at concrete rows and declarations, for both reconcilers. -/
theorem claim_C9_witness :
    (∃ extra : List FieldVal, extra.length ≤ 1 ∧
      (add_dept_names [⟨5, []⟩] [("Name1", 3)])[0]?
        = some { page := 5, fields := [] ++ extra }) ∧
    (∃ extra : List FieldVal, extra.length ≤ 1 ∧
      (add_member_count [⟨5, []⟩] [(3, 7)])[0]?
        = some { page := 5, fields := [] ++ extra }) :=
  ⟨(claim_C9_reconcilers_frame.1 [⟨5, []⟩] [("Name1", 3)]
      (by simp)).2 0 ⟨5, []⟩ rfl,
   (claim_C9_reconcilers_frame.2 [⟨5, []⟩] [(3, 7)]
      (by simp)).2 0 ⟨5, []⟩ rfl⟩

/- ### Text normalizer (source: `cleaning.py`, `clean_numbers`) -/

/-- The character set of `text.lstrip(".0123456789 ")`. -/
def stripSet : List Char :=
  ['.', '0', '1', '2', '3', '4', '5', '6', '7', '8', '9', ' ']

/-- Per-entry operation of `clean_numbers`: remove the longest leading run of
characters drawn from `stripSet` (Python `str.lstrip` with that set). -/
def lstripNum (s : String) : String :=
  String.mk (s.toList.dropWhile (fun c => c ∈ stripSet))

/-- Embedding of `clean_numbers`: strip every entry of the column. -/
def clean_numbers (column_lst : List String) : List String :=
  column_lst.map lstripNum

theorem dropWhile_self_idem {α : Type} (p : α → Bool) (l : List α) :
    (l.dropWhile p).dropWhile p = l.dropWhile p := by
  induction l with
  | nil => rfl
  | cons a t ih =>
    by_cases hp : p a
    · rw [List.dropWhile_cons, if_pos hp]
      exact ih
    · rw [List.dropWhile_cons, if_neg hp, List.dropWhile_cons, if_neg hp]

theorem dropWhile_head_not {α : Type} (p : α → Bool) (l : List α) (c : α)
    (h : (l.dropWhile p).head? = some c) : p c = false := by
  induction l with
  | nil => simp at h
  | cons a t ih =>
    by_cases hp : p a
    · rw [List.dropWhile_cons, if_pos hp] at h
      exact ih h
    · rw [List.dropWhile_cons, if_neg hp] at h
      simp only [List.head?_cons, Option.some.injEq] at h
      rw [← h]
      exact Bool.eq_false_iff.mpr hp

/-- C10: `clean_numbers` is idempotent and length-preserving, and each output
entry is a suffix of the corresponding input entry that is either empty or
does not begin with a character of the stripped set (digit, period, space). -/
theorem claim_C10_normalizeLeadingNumeric :
    ∀ l : List String,
      clean_numbers (clean_numbers l) = clean_numbers l ∧
      (clean_numbers l).length = l.length ∧
      ∀ (i : ℕ) (s : String), l[i]? = some s →
        ∃ t : String, (clean_numbers l)[i]? = some t ∧
          t.toList.IsSuffix s.toList ∧
          (t.toList = [] ∨ ∀ c, t.toList.head? = some c → c ∉ stripSet) := by
  intro l
  refine ⟨?_, by simp [clean_numbers], ?_⟩
  · unfold clean_numbers
    rw [List.map_map]
    apply List.map_congr_left
    intro s _
    show lstripNum (lstripNum s) = lstripNum s
    unfold lstripNum
    have : (String.mk (s.toList.dropWhile (fun c => c ∈ stripSet))).toList
        = s.toList.dropWhile (fun c => c ∈ stripSet) := rfl
    rw [this, dropWhile_self_idem]
  · intro i s hs
    refine ⟨lstripNum s, ?_, ?_, ?_⟩
    · unfold clean_numbers
      rw [List.getElem?_map, hs]
      rfl
    · unfold lstripNum
      simpa using List.dropWhile_suffix (fun c => decide (c ∈ stripSet))
    · by_cases hnil : (lstripNum s).toList = []
      · exact Or.inl hnil
      · refine Or.inr ?_
        intro c hc
        have hf : (fun c => decide (c ∈ stripSet)) c = false := by
          apply dropWhile_head_not _ s.toList c
          simpa [lstripNum] using hc
        simpa using hf

/-- Witness for C10 at the spec's own example entry. -/
theorem claim_C10_witness :
    ∃ t : String, (clean_numbers ["3. Increase revenue"])[0]? = some t ∧
      t.toList.IsSuffix ("3. Increase revenue").toList ∧
      (t.toList = [] ∨ ∀ c, t.toList.head? = some c → c ∉ stripSet) :=
  (claim_C10_normalizeLeadingNumeric ["3. Increase revenue"]).2.2 0
    "3. Increase revenue" rfl

/- ### Metadata locator (source: `get_department_names`) -/

/-- Python `str.strip()`: drop whitespace from both ends. -/
def pyStrip (l : List Char) : List Char :=
  ((l.dropWhile Char.isWhitespace).reverse.dropWhile Char.isWhitespace).reverse

/-- Python `str.lower()` (ASCII case fold, which covers the pattern letters
involved). -/
def pyLower (l : List Char) : List Char := l.map Char.toLower

/-- Consume the literal `w` as a prefix of `l`; return the remainder. -/
def consumeLit : List Char → List Char → Option (List Char)
  | [], rest => some rest
  | _ :: _, [] => none
  | c :: cs, r :: rs => if r = c then consumeLit cs rs else none

/-- Match of the pattern `presented\s*by\s*` anchored at the head of `l`: the
literal `presented`, a run of whitespace, then the literal `by` (the trailing
`\s*` always matches and is dropped). -/
def markerHere (l : List Char) : Bool :=
  match consumeLit "presented".toList l with
  | some r => (consumeLit "by".toList (r.dropWhile Char.isWhitespace)).isSome
  | none => false

/-- `re.search` of the marker pattern: try every start position. -/
def markerSearch : List Char → Bool
  | [] => markerHere []
  | c :: cs => markerHere (c :: cs) || markerSearch cs

/-- `re.search` of `.+team`: some occurrence of the literal `team` is
immediately preceded by a character other than a newline (`.` matches any
non-newline character, and `.+` can always shrink to exactly one). -/
def teamSearch : List Char → Bool
  | [] => false
  | c :: cs =>
      (decide (c ≠ Char.ofNat 10) && (consumeLit "team".toList cs).isSome)
        || teamSearch cs

/-- Marker test of a shape: it has a text frame and the stripped, lowered
text matches the "presented by" pattern. -/
def shapeMarker (s : ShapeModel) : Bool :=
  match s.text? with
  | some t => markerSearch (pyLower (pyStrip t.toList))
  | none => false

/-- Inner scan of `get_department_names`: every shape with a text frame whose
stripped, lowered text matches the team pattern contributes
`(stripped text, page number)`, in shape order. -/
def teamEntries (shapes : List ShapeModel) (n : ℕ) : List (String × ℕ) :=
  shapes.filterMap (fun s =>
    match s.text? with
    | some t =>
      if teamSearch (pyLower (pyStrip t.toList))
      then some (String.mk (pyStrip t.toList), n)
      else none
    | none => none)

/-- Outer scan of `get_department_names` for one page: each marker-matching
text shape triggers a full inner scan that appends all team entries of the
page (the source breaks out of neither loop). -/
def deptPage (shapes : List ShapeModel) (n : ℕ) : List (String × ℕ) :=
  shapes.foldl (fun acc s =>
    match s.text? with
    | some t =>
      if markerSearch (pyLower (pyStrip t.toList)) then acc ++ teamEntries shapes n
      else acc
    | none => acc) []

/-- Page loop of `get_department_names`: 1-based slide counter, incremented
also for skipped hidden slides (`slide_num += 1` precedes the check). -/
def deptGo : List Page → ℕ → Bool → List (String × ℕ)
  | [], _, _ => []
  | p :: ps, n, ih =>
      (if ih && p.hidden then [] else deptPage p.shapes n) ++ deptGo ps (n + 1) ih

/-- Embedding of `get_department_names`. -/
def get_department_names (pages : List Page) (ignore_hidden : Bool) :
    List (String × ℕ) :=
  deptGo pages 1 ignore_hidden

/-- Number of marker-matching text shapes on a page. -/
def markerCount (shapes : List ShapeModel) : ℕ := shapes.countP shapeMarker

/-- Specification side of the amended C7: each non-skipped page contributes
one copy of its team-entry list per marker-matching shape. -/
def deptSpec : List Page → ℕ → Bool → List (String × ℕ)
  | [], _, _ => []
  | p :: ps, n, ih =>
      (if ih && p.hidden then []
       else (List.replicate (markerCount p.shapes) (teamEntries p.shapes n)).flatten)
        ++ deptSpec ps (n + 1) ih

theorem foldl_append_replicate {α β : Type} (E : List β) (f : α → Bool) :
    ∀ (l : List α) (acc : List β),
      l.foldl (fun a s => if f s then a ++ E else a) acc
        = acc ++ (List.replicate (l.countP f) E).flatten := by
  intro l
  induction l with
  | nil => intro acc; simp
  | cons x t ih =>
    intro acc
    by_cases hf : f x
    · rw [List.foldl_cons, if_pos hf, ih]
      simp [List.countP_cons, hf, List.replicate_succ, List.append_assoc]
    · rw [List.foldl_cons, if_neg hf, ih]
      simp [List.countP_cons, hf]

theorem deptPage_eq (shapes : List ShapeModel) (n : ℕ) :
    deptPage shapes n
      = (List.replicate (markerCount shapes) (teamEntries shapes n)).flatten := by
  unfold deptPage markerCount
  have hcong : shapes.foldl (fun acc s =>
      match s.text? with
      | some t =>
        if markerSearch (pyLower (pyStrip t.toList)) then acc ++ teamEntries shapes n
        else acc
      | none => acc) []
      = shapes.foldl (fun acc s =>
          if shapeMarker s then acc ++ teamEntries shapes n else acc) [] := by
    apply foldl_congr_fun
    intro acc s _
    unfold shapeMarker
    cases s.text? with
    | none => simp
    | some t => simp
  rw [hcong, foldl_append_replicate (teamEntries shapes n) shapeMarker shapes []]
  simp

theorem length_flatten_replicate {α : Type} (k : ℕ) (E : List α) :
    (List.replicate k E).flatten.length = k * E.length := by
  induction k with
  | zero => simp
  | succ m ih =>
    rw [List.replicate_succ]
    simp only [List.flatten_cons, List.length_append, ih]
    ring

/-- C7 (amended): `get_department_names` records, for each scanned page, one
entry per pair of a marker-matching text shape and a team-matching text shape
— each marker match appends a full copy of the page's team-entry list — so
the per-page contribution has length (marker matches) × (team matches), and a
page with several marker matches or several team matches yields several
entries with the same page number. -/
theorem claim_C7_findDepartmentDeclarations :
    (∀ (pages : List Page) (ih : Bool),
      get_department_names pages ih = deptSpec pages 1 ih) ∧
    (∀ (shapes : List ShapeModel) (n : ℕ),
      (deptPage shapes n).length
        = markerCount shapes * (teamEntries shapes n).length) := by
  constructor
  · intro pages ih
    unfold get_department_names
    suffices h : ∀ (ps : List Page) (n : ℕ), deptGo ps n ih = deptSpec ps n ih by
      exact h pages 1
    intro ps
    induction ps with
    | nil => intro n; rfl
    | cons p rest ihp =>
      intro n
      unfold deptGo deptSpec
      rw [ihp (n + 1), deptPage_eq]
  · intro shapes n
    rw [deptPage_eq, length_flatten_replicate]

/-- C7 counterexample: a page with one "Presented by" shape and two
"... Team" shapes yields two declarations carrying the same page number, so
the returned list does contain two entries with the same page number. -/
theorem claim_C7_counterexample :
    get_department_names
        [⟨false, [⟨false, 0, 0, .other, some "Presented by X", none⟩,
                  ⟨false, 0, 0, .other, some "Alpha Team", none⟩,
                  ⟨false, 0, 0, .other, some "Beta Team", none⟩]⟩] false
      = [("Alpha Team", 1), ("Beta Team", 1)] ∧
    ¬ (List.map Prod.snd
        (get_department_names
          [⟨false, [⟨false, 0, 0, .other, some "Presented by X", none⟩,
                    ⟨false, 0, 0, .other, some "Alpha Team", none⟩,
                    ⟨false, 0, 0, .other, some "Beta Team", none⟩]⟩] false)).Nodup := by
  constructor
  · decide
  · decide

/- ### Table recognizer and row extractor (source: `is_okr_table`,
`get_shape_fill_colours`, `get_progress_colours_from_slide`,
`get_data_from_tables`) -/

/-- Find the first occurrence of the literal `w` in `l`; return the suffix
after it. -/
def findSub (w : List Char) : List Char → Option (List Char)
  | [] => consumeLit w []
  | c :: cs =>
      match consumeLit w (c :: cs) with
      | some r => some r
      | none => findSub w cs

/-- In-order, non-overlapping occurrence of the literal words in `l`
(leftmost-greedy, which is complete for existence).  This renders `re.search`
of the header pattern `okrs?.*projects?.*owners?.*stakeholders?.*status.*deadlines?.*`:
each optional `s?` and the trailing `.*` are absorbed by the `.*` gaps, so a
match exists exactly when the six literals occur in order. -/
def wordsInOrder : List (List Char) → List Char → Bool
  | [], _ => true
  | w :: ws, l =>
      match findSub w l with
      | some rest => wordsInOrder ws rest
      | none => false

/-- Embedding of `is_okr_table`: the header (first row) has exactly 6 cells
and its concatenated text matches the keyword pattern case-insensitively.
In the document model a table always has a header row (`t.rows[0]` in the
source); an empty grid is treated as a non-match. -/
def is_okr_table (t : TableM) : Bool :=
  let header := t.rows.headD []
  if header.length = 6 then
    wordsInOrder
      (["okr", "project", "owner", "stakeholder", "status", "deadline"].map
        String.toList)
      (pyLower (header.foldl (fun a c => a ++ c) "").toList)
  else false

/-- Embedding of `get_shape_fill_colours`: for each auto shape classify its
fill — an explicit RGB through the colour classifier, theme slot 9 to Green,
10 to Yellow, any other theme slot to Red, and an unresolved fill records
`none` (Python appends `None`). -/
def get_shape_fill_colours (shapes_lst : List ShapeModel) : List (Option String) :=
  shapes_lst.foldl (fun colors s =>
    if s.isAuto then
      colors ++ [match s.fill with
        | .rgb r g b => some (rgb_to_colour_name (r, g, b))
        | .theme 9 => some "Green"
        | .theme 10 => some "Yellow"
        | .theme _ => some "Red"
        | .other => none]
    else colors) []

/-- Embedding of `get_progress_colours_from_slide` on a page's shape list:
collect the auto shapes, order and filter the column (which raises on an
empty column — see C3), then read the fill colours. -/
def get_progress_colours (shapes : List ShapeModel) : Option (List (Option String)) :=
  (sort_auto_shapes (get_auto_shapes shapes)).map get_shape_fill_colours

/-- An output row of `get_data_from_tables`: the source's
`[slide_num] + cells + [progress_color]`, structured. -/
structure OutRow where
  page : ℕ
  cells : List String
  color : Option String
deriving DecidableEq, Inhabited

/-- Positional fill-forward of one row against the previous emitted row: an
empty cell takes the previous row's cell at the same column position
(`prev_row[i + 1]` in the source, which raises when absent — `none`); a
non-empty cell is taken verbatim.  The index loop of the source is rendered
as positional recursion, the previous row's cells kept aligned with the
current cell. -/
def resolveCells : List String → List String → Option (List String)
  | _, [] => some []
  | prev, c :: cs => do
      let v ← if c = "" then prev.head? else some c
      let rest ← resolveCells prev.tail cs
      pure (v :: rest)

/-- Data-row loop of `get_data_from_tables` for one table: `k` is the 0-based
emitted-row counter (`row_num - 2`); each row is resolved against the
previously emitted row's cells and paired with `progress_colors[k]`
(out-of-range raises — `none`).  The source aliases `prev_row` to the list it
then appends the colour to, but the fill-forward only ever reads positions
`1 .. len(cells)` of it, before the appended colour, so carrying the cells
alone is faithful. -/
def goRows (n : ℕ) (colors : List (Option String)) :
    List (List String) → List String → ℕ → Option (List OutRow)
  | [], _, _ => some []
  | cur :: rest, prev, k => do
      let resolved ← resolveCells prev cur
      let c ← colors[k]?
      let out ← goRows n colors rest resolved (k + 1)
      pure (⟨n, resolved, c⟩ :: out)

/-- Rows of one schema table: skip the header row (`row_num == 1`) and run
the data-row loop with an empty previous row. -/
def tableRows (n : ℕ) (colors : List (Option String)) (t : TableM) :
    Option (List OutRow) :=
  match t.rows with
  | [] => some []
  | _ :: dataRows => goRows n colors dataRows [] 0

/-- Shape loop of `get_data_from_tables` for one page: each shape holding a
schema-matching table contributes its rows; the progress colours are computed
per matching table, as in the source (the value is the same each time). -/
def pageRowsGo (n : ℕ) (pageShapes : List ShapeModel) :
    List ShapeModel → Option (List OutRow)
  | [] => some []
  | s :: rest => do
      let here ← match s.table? with
        | some t =>
          if is_okr_table t then do
            let colors ← get_progress_colours pageShapes
            tableRows n colors t
          else pure []
        | none => pure []
      let more ← pageRowsGo n pageShapes rest
      pure (here ++ more)

/-- All rows contributed by one page. -/
def pageRows (n : ℕ) (pg : Page) : Option (List OutRow) :=
  pageRowsGo n pg.shapes pg.shapes

/-- Page loop of `get_data_from_tables` (1-based counter, incremented before
the hidden check). -/
def gdGo : List Page → ℕ → Bool → Option (List OutRow)
  | [], _, _ => some []
  | p :: ps, n, ih => do
      let here ← if ih && p.hidden then pure [] else pageRows n p
      let rest ← gdGo ps (n + 1) ih
      pure (here ++ rest)

/-- Embedding of `get_data_from_tables`. -/
def get_data_from_tables (pages : List Page) (ignore_hidden : Bool) :
    Option (List OutRow) :=
  gdGo pages 1 ignore_hidden

theorem resolveCells_eq :
    ∀ (cur prev : List String), cur.length ≤ prev.length →
      resolveCells prev cur
        = some (List.zipWith (fun c p => if c = "" then p else c) cur prev) := by
  intro cur
  induction cur with
  | nil => intro prev _; rfl
  | cons c cs ih =>
    intro prev hlen
    cases prev with
    | nil => simp at hlen
    | cons p ps =>
      have h2 : resolveCells ps cs
          = some (List.zipWith (fun c p => if c = "" then p else c) cs ps) := by
        have : cs.length ≤ ps.length := by simpa using hlen
        exact ih ps this
      simp only [resolveCells, List.tail_cons, h2]
      by_cases hc : c = "" <;> simp [hc]

/-- C6: fill-forward — for every data row after the first of its table, an
empty cell receives the value at the same column position of the immediately
preceding emitted row, while non-empty cells are taken verbatim (a pointwise
merge with the previous resolved row); in particular `["A","B","C"]` followed
by `["","Y",""]` resolves to `["A","Y","C"]`, also through the data-row loop
of `get_data_from_tables`. -/
theorem claim_C6_fillForward :
    (∀ (cur prev : List String), cur.length ≤ prev.length →
      resolveCells prev cur
        = some (List.zipWith (fun c p => if c = "" then p else c) cur prev)) ∧
    resolveCells ["A", "B", "C"] ["", "Y", ""] = some ["A", "Y", "C"] ∧
    goRows 1 [some "Green", some "Red"] [["A", "B", "C"], ["", "Y", ""]] [] 0
      = some [⟨1, ["A", "B", "C"], some "Green"⟩,
              ⟨1, ["A", "Y", "C"], some "Red"⟩] := by
  refine ⟨resolveCells_eq, by decide, by decide⟩

/-- Witness for C6 at the spec's fixture rows. -/
theorem claim_C6_witness :
    resolveCells ["A", "B", "C"] ["", "Y", ""]
      = some (List.zipWith (fun c p => if c = "" then p else c)
          ["", "Y", ""] ["A", "B", "C"]) :=
  claim_C6_fillForward.1 ["", "Y", ""] ["A", "B", "C"] (by decide)

theorem goRows_short_colors :
    ∀ (rows : List (List String)) (n : ℕ) (colors : List (Option String))
      (prev : List String) (k : ℕ),
      rows ≠ [] → colors.length < rows.length + k →
      goRows n colors rows prev k = none := by
  intro rows
  induction rows with
  | nil => intro n colors prev k hne _; exact absurd rfl hne
  | cons r rest ih =>
    intro n colors prev k _ hlen
    cases hres : resolveCells prev r with
    | none => simp [goRows, hres]
    | some resolved =>
      by_cases hrest : rest = []
      · subst hrest
        have hk : colors[k]? = none := by
          apply List.getElem?_eq_none
          simp only [List.length_cons, List.length_nil] at hlen
          omega
        simp [goRows, hres, hk]
      · cases hck : colors[k]? with
        | none => simp [goRows, hres, hck]
        | some c =>
          have hrec := ih n colors resolved (k + 1) hrest
            (by simp only [List.length_cons] at hlen ⊢; omega)
          simp [goRows, hres, hck, hrec]

/-- Green indicator shape of the C5 page (explicit RGB equal to the green
reference, top 0 cm, left 1 cm). -/
def shpGreen : ShapeModel := ⟨true, 0, 360000, .rgb 147 196 125, none, none⟩

/-- Red indicator shape of the C5 page (top 1 cm, left 1 cm). -/
def shpRed : ShapeModel := ⟨true, 360000, 360000, .rgb 213 97 97, none, none⟩

/-- Schema table of the C5 page: a 6-column header and one data row. -/
def tblC5 : TableM :=
  ⟨[["OKRs", "Projects", "Owner", "Stakeholders", "Status", "Deadline"],
    ["1. Grow", "P", "O", "S", "On track", "May 5"]]⟩

/-- C5 page: two indicator shapes but only one data row. -/
def pgC5 : Page := ⟨false, [shpGreen, shpRed, ⟨false, 0, 0, .other, none, some tblC5⟩]⟩

theorem progress_colours_pgC5 :
    get_progress_colours pgC5.shapes = some [some "Green", some "Red"] := by
  have h1 : get_auto_shapes pgC5.shapes = [shpGreen, shpRed] := by
    norm_num [get_auto_shapes, pgC5, shpGreen, shpRed, is_overlapping, overlapIdx,
      get_top_dist, tblC5]
  have h2 : sort_auto_shapes [shpGreen, shpRed] = some [shpGreen, shpRed] := by
    norm_num [sort_auto_shapes, buildTopDict, dictInsert, minKey, extractLoop,
      get_top_dist, get_left_dist, min_def, shpGreen, shpRed, List.find?, List.filter]
  have h3 : get_shape_fill_colours [shpGreen, shpRed] = [some "Green", some "Red"] := by
    decide
  rw [get_progress_colours, h1, h2]
  simp [h3]

theorem pageRows_pgC5 :
    pageRows 1 pgC5
      = some [⟨1, ["1. Grow", "P", "O", "S", "On track", "May 5"], some "Green"⟩] := by
  have hokr : is_okr_table tblC5 = true := by decide
  have hrows : tableRows 1 [some "Green", some "Red"] tblC5
      = some [⟨1, ["1. Grow", "P", "O", "S", "On track", "May 5"], some "Green"⟩] := by
    decide
  have ht1 : shpGreen.table? = none := rfl
  have ht2 : shpRed.table? = none := rfl
  have ht3 : (⟨false, 0, 0, .other, none, some tblC5⟩ : ShapeModel).table?
      = some tblC5 := rfl
  rw [pageRows]
  show pageRowsGo 1 pgC5.shapes
    [shpGreen, shpRed, ⟨false, 0, 0, .other, none, some tblC5⟩] = _
  simp only [pageRowsGo, ht1, ht2, ht3, hokr, progress_colours_pgC5, if_true]
  simp [hrows]

/-- C5 (amended): the extractor surfaces a count mismatch only in one
direction — when the indicator colours are fewer than the data rows the
lookup `progress_colors[row_num - 2]` goes out of range and the page raises
(`none`); when the colours exceed the data rows the excess is silently
ignored and extraction succeeds, as on the concrete page `pgC5` with two
colours and one data row. -/
theorem claim_C5_misalignment :
    (∀ (n : ℕ) (colors : List (Option String)) (rows : List (List String))
        (prev : List String) (k : ℕ),
      rows ≠ [] → colors.length < rows.length + k →
      goRows n colors rows prev k = none) ∧
    get_data_from_tables [pgC5] false
      = some [⟨1, ["1. Grow", "P", "O", "S", "On track", "May 5"], some "Green"⟩] := by
  constructor
  · intro n colors rows prev k h1 h2
    exact goRows_short_colors rows n colors prev k h1 h2
  · have hh : pgC5.hidden = false := rfl
    simp [get_data_from_tables, gdGo, pageRows_pgC5, hh]

/-- Witness for C5's general half: with no colours and one data row the loop
raises. -/
theorem claim_C5_witness :
    (([["x"]] : List (List String)) ≠ [] ∧
      ([] : List (Option String)).length < [["x"]].length + 0) ∧
    goRows 1 [] [["x"]] [] 0 = none :=
  ⟨⟨by decide, by decide⟩,
    claim_C5_misalignment.1 1 [] [["x"]] [] 0 (by decide) (by decide)⟩

/-- C5 counterexample: on `pgC5` the page produces two indicator colours for
a single extracted data row — a structural misalignment — yet
`get_data_from_tables` succeeds, silently ignoring the excess colour instead
of reporting the mismatch. -/
theorem claim_C5_counterexample :
    get_progress_colours pgC5.shapes = some [some "Green", some "Red"] ∧
    tblC5.rows.length - 1 = 1 ∧
    get_data_from_tables [pgC5] false
      = some [⟨1, ["1. Grow", "P", "O", "S", "On track", "May 5"], some "Green"⟩] := by
  refine ⟨progress_colours_pgC5, rfl, ?_⟩
  have hh : pgC5.hidden = false := rfl
  simp [get_data_from_tables, gdGo, pageRows_pgC5, hh]
